import Mathlib

/-!
Shallow embedding of the tally-tracker repository's two stateful screens:

* the abacus bead-drag constraint walk (`src/app/(tabs)/abacus.tsx`, the
  `Gesture.Pan().onUpdate` handler), and
* the tally screen's score handlers (`handleCorrect`, `handleTryAgain`,
  `handleUndo`, `handleReset`).

Bead positions and drag deltas are JavaScript numbers; they are embedded as
rationals.  The screen constants `beadUnit = beadWidth + beadSpacing` and
`maxX = availableWidth - beadWidth` are kept abstract in a parameter
structure; `minX = 0` as in the source.
-/

/-- The per-screen constants the `onUpdate` walk reads: `beadUnit` is
`beadWidth + beadSpacing`, `maxX` is `availableWidth - beadWidth`. -/
structure AbacusParams where
  beadUnit : ℚ
  maxX : ℚ

/-- `proposedX = Math.max(minX, Math.min(proposedX, maxX))` with `minX = 0`. -/
def clampPos (p : AbacusParams) (x : ℚ) : ℚ :=
  max 0 (min x p.maxX)

/-- The rightward (`direction = 1`, i.e. `dx > 0`) run of the `while` loop in
`onUpdate`, acting on the suffix of the rod's positions that starts at the
dragged bead.  Each visited bead gets the raw `dx` added
(`proposedX = current.sharedX.value + dx`), is clamped to the track, then
clamped back to `nextX - beadUnit` when `proposedX + beadUnit > nextX`; the
loop breaks at the last bead (`!hasNext`) or when the committed position
satisfies `proposedX + beadUnit >= maxX` (`overlapResolved`). -/
def goRight (p : AbacusParams) (dx : ℚ) : List ℚ → List ℚ
  | [] => []
  | [x] => [clampPos p (x + dx)]
  | x :: y :: rest =>
    let prop := clampPos p (x + dx)
    let prop2 := if prop + p.beadUnit > y then y - p.beadUnit else prop
    if prop2 + p.beadUnit ≥ p.maxX then prop2 :: y :: rest
    else prop2 :: goRight p dx (y :: rest)

/-- The leftward (`direction = -1`, i.e. `dx <= 0`) run of the `while` loop,
acting on the REVERSED prefix of the rod up to and including the dragged bead
(so the list head is the dragged bead and each tail element is the neighbour
one index lower).  Clamping is to `nextX + beadUnit` when
`proposedX < nextX + beadUnit`; the loop breaks at bead 0 or when the
committed position satisfies `proposedX <= minX = 0`. -/
def goLeft (p : AbacusParams) (dx : ℚ) : List ℚ → List ℚ
  | [] => []
  | [x] => [clampPos p (x + dx)]
  | x :: y :: rest =>
    let prop := clampPos p (x + dx)
    let prop2 := if prop < y + p.beadUnit then y + p.beadUnit else prop
    if prop2 ≤ 0 then prop2 :: y :: rest
    else prop2 :: goLeft p dx (y :: rest)

/-- One execution of the `onUpdate` walk on a rod: `xs` the beads' current
positions in index order, `i` the dragged bead's index, `dx` the incremental
translation since the last tick.  `direction = dx > 0 ? 1 : -1`; the `while`
guard `index >= 0 && index < rodBeads.length` makes an out-of-range start a
no-op. -/
def onUpdate (p : AbacusParams) (xs : List ℚ) (i : ℕ) (dx : ℚ) : List ℚ :=
  if i < xs.length then
    if 0 < dx then xs.take i ++ goRight p dx (xs.drop i)
    else (goLeft p dx ((xs.take (i + 1)).reverse)).reverse ++ xs.drop (i + 1)
  else xs

/-- Number of loop iterations (beads visited) of the rightward run. -/
def goRightSteps (p : AbacusParams) (dx : ℚ) : List ℚ → ℕ
  | [] => 0
  | [_] => 1
  | x :: y :: rest =>
    let prop := clampPos p (x + dx)
    let prop2 := if prop + p.beadUnit > y then y - p.beadUnit else prop
    if prop2 + p.beadUnit ≥ p.maxX then 1
    else 1 + goRightSteps p dx (y :: rest)

/-- Number of loop iterations (beads visited) of the leftward run. -/
def goLeftSteps (p : AbacusParams) (dx : ℚ) : List ℚ → ℕ
  | [] => 0
  | [_] => 1
  | x :: y :: rest =>
    let prop := clampPos p (x + dx)
    let prop2 := if prop < y + p.beadUnit then y + p.beadUnit else prop
    if prop2 ≤ 0 then 1
    else 1 + goLeftSteps p dx (y :: rest)

/-- Number of beads the `onUpdate` walk visits (loop iterations). -/
def onUpdateSteps (p : AbacusParams) (xs : List ℚ) (i : ℕ) (dx : ℚ) : ℕ :=
  if i < xs.length then
    if 0 < dx then goRightSteps p dx (xs.drop i)
    else goLeftSteps p dx ((xs.take (i + 1)).reverse)
  else 0

/-- Non-overlap invariant of a rod: adjacent positions keep at least
`beadUnit = beadWidth + spacing` between them. -/
def nonOverlap (p : AbacusParams) (xs : List ℚ) : Prop :=
  xs.Chain' (fun a b => a + p.beadUnit ≤ b)

/-- Track-bounds invariant: every position lies in `[0, maxX]`. -/
def inBounds (p : AbacusParams) (xs : List ℚ) : Prop :=
  ∀ x ∈ xs, 0 ≤ x ∧ x ≤ p.maxX

/-! ### Elementary facts about the clamp -/

theorem clampPos_nonneg (p : AbacusParams) (x : ℚ) : 0 ≤ clampPos p x :=
  le_max_left 0 _

theorem clampPos_le_maxX (p : AbacusParams) (x : ℚ) (h : 0 ≤ p.maxX) :
    clampPos p x ≤ p.maxX :=
  max_le h (min_le_right x p.maxX)

theorem le_clampPos_add (p : AbacusParams) {dx a : ℚ} (hdx : 0 ≤ dx) (ha : a ≤ p.maxX) :
    a ≤ clampPos p (a + dx) :=
  le_trans (le_min (by linarith) ha) (le_max_right 0 _)

theorem lt_clampPos_add (p : AbacusParams) {dx a : ℚ} (hdx : 0 < dx) (ha : a < p.maxX) :
    a < clampPos p (a + dx) :=
  lt_of_lt_of_le (lt_min (by linarith) ha) (le_max_right 0 _)

theorem clampPos_add_le (p : AbacusParams) {dx a : ℚ} (hdx : dx ≤ 0) (ha : 0 ≤ a) :
    clampPos p (a + dx) ≤ a :=
  max_le ha (le_trans (min_le_left _ _) (by linarith))

theorem clampPos_eq_self (p : AbacusParams) {x : ℚ} (h0 : 0 ≤ x) (h1 : x ≤ p.maxX) :
    clampPos p x = x := by
  unfold clampPos
  rw [min_eq_left h1, max_eq_right h0]

/-! ### The rightward run -/

theorem goRight_length (p : AbacusParams) (dx : ℚ) (l : List ℚ) :
    (goRight p dx l).length = l.length := by
  induction l with
  | nil => simp [goRight]
  | cons x t ih =>
    cases t with
    | nil => simp [goRight]
    | cons y rest =>
      simp only [goRight]
      split_ifs <;> simp_all

/-- The walk never moves its first bead leftwards (for a rightward drag): the
head of `goRight` is at least the old head. -/
theorem goRight_head (p : AbacusParams) {dx : ℚ} (hdx : 0 ≤ dx) (a : ℚ) (l : List ℚ)
    (hc : (a :: l).Chain' (fun u v => u + p.beadUnit ≤ v))
    (hb : ∀ x ∈ a :: l, 0 ≤ x ∧ x ≤ p.maxX) :
    ∃ b t, goRight p dx (a :: l) = b :: t ∧ a ≤ b := by
  have hcl : a ≤ clampPos p (a + dx) := le_clampPos_add p hdx (hb a (by simp)).2
  cases l with
  | nil => exact ⟨clampPos p (a + dx), [], by simp [goRight], hcl⟩
  | cons y rest =>
    have hay : a + p.beadUnit ≤ y := (List.chain'_cons.mp hc).1
    simp only [goRight]
    split_ifs <;> exact ⟨_, _, rfl, by linarith⟩

theorem goRight_chain (p : AbacusParams) {dx : ℚ} (hdx : 0 ≤ dx) :
    ∀ l : List ℚ, l.Chain' (fun u v => u + p.beadUnit ≤ v) →
      (∀ x ∈ l, 0 ≤ x ∧ x ≤ p.maxX) →
      (goRight p dx l).Chain' (fun u v => u + p.beadUnit ≤ v)
  | [], _, _ => by simp [goRight]
  | [x], _, _ => by simp [goRight]
  | x :: y :: rest, hc, hb => by
    have hxy : x + p.beadUnit ≤ y := (List.chain'_cons.mp hc).1
    have hct := (List.chain'_cons.mp hc).2
    have hbt : ∀ z ∈ y :: rest, 0 ≤ z ∧ z ≤ p.maxX :=
      fun z hz => hb z (List.mem_cons_of_mem x hz)
    have ih := goRight_chain p hdx (y :: rest) hct hbt
    obtain ⟨b, t2, heq, hyb⟩ := goRight_head p hdx y rest hct hbt
    simp only [goRight]
    split_ifs with h1 h2 h2
    · exact List.chain'_cons.mpr ⟨by linarith, hct⟩
    · rw [heq]
      exact List.chain'_cons.mpr ⟨by linarith, heq ▸ ih⟩
    · exact List.chain'_cons.mpr ⟨by linarith, hct⟩
    · rw [heq]
      exact List.chain'_cons.mpr ⟨by linarith, heq ▸ ih⟩

theorem goRight_bounds (p : AbacusParams) (dx : ℚ) (hu : 0 ≤ p.beadUnit) :
    ∀ l : List ℚ, l.Chain' (fun u v => u + p.beadUnit ≤ v) →
      (∀ x ∈ l, 0 ≤ x ∧ x ≤ p.maxX) →
      ∀ z ∈ goRight p dx l, 0 ≤ z ∧ z ≤ p.maxX
  | [], _, _ => by simp [goRight]
  | [x], _, hb => by
    have hx := hb x (by simp)
    have hmax : 0 ≤ p.maxX := le_trans hx.1 hx.2
    intro z hz
    simp only [goRight, List.mem_singleton] at hz
    subst hz
    exact ⟨clampPos_nonneg p _, clampPos_le_maxX p _ hmax⟩
  | x :: y :: rest, hc, hb => by
    have hxy : x + p.beadUnit ≤ y := (List.chain'_cons.mp hc).1
    have hx := hb x (by simp)
    have hy := hb y (by simp)
    have hmax : 0 ≤ p.maxX := le_trans hx.1 hx.2
    have hbt : ∀ z ∈ y :: rest, 0 ≤ z ∧ z ≤ p.maxX :=
      fun z hz => hb z (List.mem_cons_of_mem x hz)
    have ih := goRight_bounds p dx hu (y :: rest) (List.chain'_cons.mp hc).2 hbt
    have hclamp : 0 ≤ clampPos p (x + dx) ∧ clampPos p (x + dx) ≤ p.maxX :=
      ⟨clampPos_nonneg p _, clampPos_le_maxX p _ hmax⟩
    intro z hz
    simp only [goRight] at hz
    split_ifs at hz with h1 h2 h2
    · rcases List.mem_cons.mp hz with hz1 | hz2
      · exact hz1 ▸ ⟨by linarith, by linarith⟩
      · exact hbt z hz2
    · rcases List.mem_cons.mp hz with hz1 | hz2
      · exact hz1 ▸ ⟨by linarith, by linarith⟩
      · exact ih z hz2
    · rcases List.mem_cons.mp hz with hz1 | hz2
      · exact hz1 ▸ hclamp
      · exact hbt z hz2
    · rcases List.mem_cons.mp hz with hz1 | hz2
      · exact hz1 ▸ hclamp
      · exact ih z hz2

/-- Every run of the loop rewrites a nonempty prefix of the beads it is given
and leaves the rest of the rod untouched. -/
theorem goRight_decomp (p : AbacusParams) (dx : ℚ) :
    ∀ l : List ℚ, ∃ l₁ : List ℚ,
      goRight p dx l = l₁ ++ l.drop l₁.length ∧ l₁.length ≤ l.length ∧
        (l ≠ [] → 1 ≤ l₁.length)
  | [] => ⟨[], by simp [goRight], by simp, by simp⟩
  | [x] => ⟨[clampPos p (x + dx)], by simp [goRight], by simp, by simp⟩
  | x :: y :: rest => by
    obtain ⟨l₁, heq, hle, _⟩ := goRight_decomp p dx (y :: rest)
    simp only [List.length_cons] at hle
    simp only [goRight]
    split_ifs
    · exact ⟨[y - p.beadUnit], by simp,
        by simp only [List.length_singleton, List.length_cons, List.length_nil]; omega, by simp⟩
    · refine ⟨(y - p.beadUnit) :: l₁, ?_,
        by simp only [List.length_cons]; omega, by simp⟩
      simp only [List.length_cons, List.drop_succ_cons, List.cons_append, heq]
    · exact ⟨[clampPos p (x + dx)], by simp,
        by simp only [List.length_singleton, List.length_cons, List.length_nil]; omega, by simp⟩
    · refine ⟨clampPos p (x + dx) :: l₁, ?_,
        by simp only [List.length_cons]; omega, by simp⟩
      simp only [List.length_cons, List.drop_succ_cons, List.cons_append, heq]

theorem goRightSteps_le (p : AbacusParams) (dx : ℚ) (l : List ℚ) :
    goRightSteps p dx l ≤ l.length := by
  induction l with
  | nil => simp [goRightSteps]
  | cons x t ih =>
    cases t with
    | nil => simp [goRightSteps]
    | cons y rest =>
      simp only [goRightSteps]
      split_ifs <;> simp_all <;> omega

/-! ### The leftward run

`goLeft` receives the reversed prefix of the rod, so its chain relation is the
flip of the rod's: each tail element sits at least `beadUnit` BELOW its
predecessor. -/

theorem goLeft_length (p : AbacusParams) (dx : ℚ) (l : List ℚ) :
    (goLeft p dx l).length = l.length := by
  induction l with
  | nil => simp [goLeft]
  | cons x t ih =>
    cases t with
    | nil => simp [goLeft]
    | cons y rest =>
      simp only [goLeft]
      split_ifs <;> simp_all

/-- The walk never moves its first bead rightwards (for a leftward drag). -/
theorem goLeft_head (p : AbacusParams) {dx : ℚ} (hdx : dx ≤ 0) (a : ℚ) (l : List ℚ)
    (hc : (a :: l).Chain' (fun u v => v + p.beadUnit ≤ u))
    (hb : ∀ x ∈ a :: l, 0 ≤ x ∧ x ≤ p.maxX) :
    ∃ b t, goLeft p dx (a :: l) = b :: t ∧ b ≤ a := by
  have hcl : clampPos p (a + dx) ≤ a := clampPos_add_le p hdx (hb a (by simp)).1
  cases l with
  | nil => exact ⟨clampPos p (a + dx), [], by simp [goLeft], hcl⟩
  | cons y rest =>
    have hay : y + p.beadUnit ≤ a := (List.chain'_cons.mp hc).1
    simp only [goLeft]
    split_ifs <;> exact ⟨_, _, rfl, by linarith⟩

theorem goLeft_chain (p : AbacusParams) {dx : ℚ} (hdx : dx ≤ 0) :
    ∀ l : List ℚ, l.Chain' (fun u v => v + p.beadUnit ≤ u) →
      (∀ x ∈ l, 0 ≤ x ∧ x ≤ p.maxX) →
      (goLeft p dx l).Chain' (fun u v => v + p.beadUnit ≤ u)
  | [], _, _ => by simp [goLeft]
  | [x], _, _ => by simp [goLeft]
  | x :: y :: rest, hc, hb => by
    have hxy : y + p.beadUnit ≤ x := (List.chain'_cons.mp hc).1
    have hct := (List.chain'_cons.mp hc).2
    have hbt : ∀ z ∈ y :: rest, 0 ≤ z ∧ z ≤ p.maxX :=
      fun z hz => hb z (List.mem_cons_of_mem x hz)
    have ih := goLeft_chain p hdx (y :: rest) hct hbt
    obtain ⟨b, t2, heq, hyb⟩ := goLeft_head p hdx y rest hct hbt
    simp only [goLeft]
    split_ifs with h1 h2 h2
    · exact List.chain'_cons.mpr ⟨by linarith, hct⟩
    · rw [heq]
      exact List.chain'_cons.mpr ⟨by linarith, heq ▸ ih⟩
    · exact List.chain'_cons.mpr ⟨by linarith, hct⟩
    · rw [heq]
      exact List.chain'_cons.mpr ⟨by linarith, heq ▸ ih⟩

theorem goLeft_bounds (p : AbacusParams) (dx : ℚ) (hu : 0 ≤ p.beadUnit) :
    ∀ l : List ℚ, l.Chain' (fun u v => v + p.beadUnit ≤ u) →
      (∀ x ∈ l, 0 ≤ x ∧ x ≤ p.maxX) →
      ∀ z ∈ goLeft p dx l, 0 ≤ z ∧ z ≤ p.maxX
  | [], _, _ => by simp [goLeft]
  | [x], _, hb => by
    have hx := hb x (by simp)
    have hmax : 0 ≤ p.maxX := le_trans hx.1 hx.2
    intro z hz
    simp only [goLeft, List.mem_singleton] at hz
    subst hz
    exact ⟨clampPos_nonneg p _, clampPos_le_maxX p _ hmax⟩
  | x :: y :: rest, hc, hb => by
    have hxy : y + p.beadUnit ≤ x := (List.chain'_cons.mp hc).1
    have hx := hb x (by simp)
    have hy := hb y (by simp)
    have hmax : 0 ≤ p.maxX := le_trans hx.1 hx.2
    have hbt : ∀ z ∈ y :: rest, 0 ≤ z ∧ z ≤ p.maxX :=
      fun z hz => hb z (List.mem_cons_of_mem x hz)
    have ih := goLeft_bounds p dx hu (y :: rest) (List.chain'_cons.mp hc).2 hbt
    have hclamp : 0 ≤ clampPos p (x + dx) ∧ clampPos p (x + dx) ≤ p.maxX :=
      ⟨clampPos_nonneg p _, clampPos_le_maxX p _ hmax⟩
    intro z hz
    simp only [goLeft] at hz
    split_ifs at hz with h1 h2 h2
    · rcases List.mem_cons.mp hz with hz1 | hz2
      · exact hz1 ▸ ⟨by linarith, by linarith⟩
      · exact hbt z hz2
    · rcases List.mem_cons.mp hz with hz1 | hz2
      · exact hz1 ▸ ⟨by linarith, by linarith⟩
      · exact ih z hz2
    · rcases List.mem_cons.mp hz with hz1 | hz2
      · exact hz1 ▸ hclamp
      · exact hbt z hz2
    · rcases List.mem_cons.mp hz with hz1 | hz2
      · exact hz1 ▸ hclamp
      · exact ih z hz2

/-- With `dx = 0` (a zero delta goes down the `direction = -1` branch) the
leftward run rewrites every visited bead with its own old position. -/
theorem goLeft_zero (p : AbacusParams) :
    ∀ l : List ℚ, l.Chain' (fun u v => v + p.beadUnit ≤ u) →
      (∀ x ∈ l, 0 ≤ x ∧ x ≤ p.maxX) → goLeft p 0 l = l
  | [], _, _ => by simp [goLeft]
  | [x], _, hb => by
    have hx := hb x (by simp)
    simp only [goLeft]
    rw [add_zero, clampPos_eq_self p hx.1 hx.2]
  | x :: y :: rest, hc, hb => by
    have hxy : y + p.beadUnit ≤ x := (List.chain'_cons.mp hc).1
    have hx := hb x (by simp)
    have ih := goLeft_zero p (y :: rest) (List.chain'_cons.mp hc).2
      (fun z hz => hb z (List.mem_cons_of_mem x hz))
    simp only [goLeft]
    rw [add_zero, clampPos_eq_self p hx.1 hx.2,
      if_neg (by linarith : ¬ x < y + p.beadUnit)]
    split_ifs
    · rfl
    · rw [ih]

theorem goLeft_decomp (p : AbacusParams) (dx : ℚ) :
    ∀ l : List ℚ, ∃ l₁ : List ℚ,
      goLeft p dx l = l₁ ++ l.drop l₁.length ∧ l₁.length ≤ l.length ∧
        (l ≠ [] → 1 ≤ l₁.length)
  | [] => ⟨[], by simp [goLeft], by simp, by simp⟩
  | [x] => ⟨[clampPos p (x + dx)], by simp [goLeft], by simp, by simp⟩
  | x :: y :: rest => by
    obtain ⟨l₁, heq, hle, _⟩ := goLeft_decomp p dx (y :: rest)
    simp only [List.length_cons] at hle
    simp only [goLeft]
    split_ifs
    · exact ⟨[y + p.beadUnit], by simp,
        by simp only [List.length_singleton, List.length_cons, List.length_nil]; omega, by simp⟩
    · refine ⟨(y + p.beadUnit) :: l₁, ?_,
        by simp only [List.length_cons]; omega, by simp⟩
      simp only [List.length_cons, List.drop_succ_cons, List.cons_append, heq]
    · exact ⟨[clampPos p (x + dx)], by simp,
        by simp only [List.length_singleton, List.length_cons, List.length_nil]; omega, by simp⟩
    · refine ⟨clampPos p (x + dx) :: l₁, ?_,
        by simp only [List.length_cons]; omega, by simp⟩
      simp only [List.length_cons, List.drop_succ_cons, List.cons_append, heq]

theorem goLeftSteps_le (p : AbacusParams) (dx : ℚ) (l : List ℚ) :
    goLeftSteps p dx l ≤ l.length := by
  induction l with
  | nil => simp [goLeftSteps]
  | cons x t ih =>
    cases t with
    | nil => simp [goLeftSteps]
    | cons y rest =>
      simp only [goLeftSteps]
      split_ifs <;> simp_all <;> omega

/-! ### Invariant preservation across the whole walk -/

/-- If the reassembled right branch is nonempty, its head is at least the old
head of the rod segment. -/
theorem head_take_append_goRight (p : AbacusParams) {dx : ℚ} (hdx : 0 ≤ dx)
    (t : List ℚ) (i : ℕ)
    (hc : t.Chain' (fun u v => u + p.beadUnit ≤ v))
    (hb : ∀ x ∈ t, 0 ≤ x ∧ x ≤ p.maxX) :
    ∀ h ∈ (t.take i ++ goRight p dx (t.drop i)).head?, ∃ y0 ∈ t.head?, y0 ≤ h := by
  cases t with
  | nil => simp [goRight]
  | cons y t2 =>
    cases i with
    | zero =>
      obtain ⟨b, tb, heq, hyb⟩ := goRight_head p hdx y t2 hc hb
      simp only [List.take_zero, List.drop_zero, List.nil_append, heq]
      intro h hh
      simp only [List.head?_cons, Option.mem_def, Option.some.injEq] at hh
      exact ⟨y, by simp, hh ▸ hyb⟩
    | succ j =>
      simp only [List.take_succ_cons, List.cons_append]
      intro h hh
      simp only [List.head?_cons, Option.mem_def, Option.some.injEq] at hh
      exact ⟨y, by simp, le_of_eq hh⟩

theorem chain_take_append_goRight (p : AbacusParams) {dx : ℚ} (hdx : 0 ≤ dx) :
    ∀ (xs : List ℚ) (i : ℕ), xs.Chain' (fun u v => u + p.beadUnit ≤ v) →
      (∀ x ∈ xs, 0 ≤ x ∧ x ≤ p.maxX) →
      (xs.take i ++ goRight p dx (xs.drop i)).Chain' (fun u v => u + p.beadUnit ≤ v)
  | [], _, _, _ => by simp [goRight]
  | x :: t, 0, hc, hb => by
    simpa using goRight_chain p hdx (x :: t) hc hb
  | x :: t, i + 1, hc, hb => by
    have hct : t.Chain' (fun u v => u + p.beadUnit ≤ v) := (List.chain'_cons'.mp hc).2
    have hbt : ∀ z ∈ t, 0 ≤ z ∧ z ≤ p.maxX :=
      fun z hz => hb z (List.mem_cons_of_mem x hz)
    have ihc := chain_take_append_goRight p hdx t i hct hbt
    simp only [List.take_succ_cons, List.drop_succ_cons, List.cons_append]
    refine List.chain'_cons'.mpr ⟨?_, ihc⟩
    intro h hh
    obtain ⟨y0, hy0, hle⟩ := head_take_append_goRight p hdx t i hct hbt h hh
    have hxy0 := (List.chain'_cons'.mp hc).1 y0 hy0
    linarith

/-- C1 (main form): a single `onUpdate` walk preserves the non-overlap
invariant, given both invariants held before. -/
theorem nonOverlap_preserved (p : AbacusParams) (xs : List ℚ) (i : ℕ) (dx : ℚ)
    (hno : nonOverlap p xs) (hbd : inBounds p xs) :
    nonOverlap p (onUpdate p xs i dx) := by
  unfold nonOverlap at hno ⊢
  unfold inBounds at hbd
  unfold onUpdate
  by_cases hi : i < xs.length
  · rw [if_pos hi]
    by_cases hdx : 0 < dx
    · rw [if_pos hdx]
      exact chain_take_append_goRight p hdx.le xs i hno hbd
    · rw [if_neg hdx]
      push_neg at hdx
      have htkc : (xs.take (i + 1)).Chain' (fun u v => u + p.beadUnit ≤ v) :=
        hno.take _
      have htkb : ∀ x ∈ xs.take (i + 1), 0 ≤ x ∧ x ≤ p.maxX :=
        fun x hx => hbd x (List.take_subset _ _ hx)
      have hrc : ((xs.take (i + 1)).reverse).Chain' (fun u v => v + p.beadUnit ≤ u) := by
        rw [List.chain'_reverse]
        exact htkc
      have hrb : ∀ x ∈ (xs.take (i + 1)).reverse, 0 ≤ x ∧ x ≤ p.maxX :=
        fun x hx => htkb x (List.mem_reverse.mp hx)
      have hA : (goLeft p dx ((xs.take (i + 1)).reverse)).Chain'
          (fun u v => v + p.beadUnit ≤ u) :=
        goLeft_chain p hdx _ hrc hrb
      have hA2 : ((goLeft p dx ((xs.take (i + 1)).reverse)).reverse).Chain'
          (fun u v => u + p.beadUnit ≤ v) := by
        rw [List.chain'_reverse]
        exact hA
      have hB : (xs.drop (i + 1)).Chain' (fun u v => u + p.beadUnit ≤ v) := hno.drop _
      refine List.Chain'.append hA2 hB ?_
      intro a ha b hb2
      rw [List.getLast?_reverse] at ha
      have htkrev : (xs.take (i + 1)).reverse = xs.get ⟨i, hi⟩ :: (xs.take i).reverse := by
        rw [← List.take_concat_get xs i hi]
        simp [List.concat_eq_append]
      obtain ⟨b0, t0, heq0, hb0le⟩ :=
        goLeft_head p hdx (xs.get ⟨i, hi⟩) ((xs.take i).reverse)
          (htkrev ▸ hrc) (htkrev ▸ hrb)
      rw [htkrev, heq0] at ha
      simp only [List.head?_cons, Option.mem_def, Option.some.injEq] at ha
      have hdropc : (xs.drop i).Chain' (fun u v => u + p.beadUnit ≤ v) := hno.drop _
      rw [List.drop_eq_get_cons hi] at hdropc
      have hgb := (List.chain'_cons'.mp hdropc).1 b hb2
      subst ha
      linarith
  · rw [if_neg hi]
    exact hno

/-- C2 (main form): a single `onUpdate` walk keeps every bead inside the track
bounds, given both invariants held before. -/
theorem bounds_preserved (p : AbacusParams) (xs : List ℚ) (i : ℕ) (dx : ℚ)
    (hu : 0 ≤ p.beadUnit) (hno : nonOverlap p xs) (hbd : inBounds p xs) :
    inBounds p (onUpdate p xs i dx) := by
  unfold nonOverlap at hno
  unfold inBounds at hbd ⊢
  unfold onUpdate
  by_cases hi : i < xs.length
  · rw [if_pos hi]
    by_cases hdx : 0 < dx
    · rw [if_pos hdx]
      intro x hx
      rcases List.mem_append.mp hx with h1 | h2
      · exact hbd x (List.take_subset _ _ h1)
      · exact goRight_bounds p dx hu (xs.drop i) (hno.drop i)
          (fun z hz => hbd z (List.drop_subset _ _ hz)) x h2
    · rw [if_neg hdx]
      intro x hx
      rcases List.mem_append.mp hx with h1 | h2
      · have hrc : ((xs.take (i + 1)).reverse).Chain' (fun u v => v + p.beadUnit ≤ u) := by
          rw [List.chain'_reverse]
          exact hno.take _
        exact goLeft_bounds p dx hu _ hrc
          (fun z hz => hbd z (List.take_subset _ _ (List.mem_reverse.mp hz)))
          x (List.mem_reverse.mp h1)
      · exact hbd x (List.drop_subset _ _ h2)
  · rw [if_neg hi]
    exact hbd

/-- Witness for C1 at a concrete rod. -/
theorem nonOverlap_preserved_witness :
    nonOverlap ⟨22, 380⟩ (onUpdate ⟨22, 380⟩ [0, 22, 100] 0 5) :=
  nonOverlap_preserved ⟨22, 380⟩ [0, 22, 100] 0 5
    (by norm_num [nonOverlap, List.chain'_cons, List.chain'_singleton])
    (by norm_num [inBounds])

/-- Witness for C2 at a concrete rod. -/
theorem bounds_preserved_witness :
    inBounds ⟨22, 380⟩ (onUpdate ⟨22, 380⟩ [0, 22, 100] 1 7) :=
  bounds_preserved ⟨22, 380⟩ [0, 22, 100] 1 7 (by norm_num)
    (by norm_num [nonOverlap, List.chain'_cons, List.chain'_singleton])
    (by norm_num [inBounds])

/-- C3 (counterexample): for the packed rod `[0, 22, 44]` (`beadUnit = 22`,
`maxX = 380`) a drag of `+500` on bead 0 does NOT move the three beads
together: beads 0 and 1 stay in place while bead 2 jumps to the track edge,
so no common displacement exists. -/
theorem push_propagation_fails :
    onUpdate ⟨22, 380⟩ [0, 22, 44] 0 500 = [0, 22, 380] ∧
      ¬ ∃ d : ℚ, onUpdate ⟨22, 380⟩ [0, 22, 44] 0 500 = [0 + d, 22 + d, 44 + d] := by
  have h : onUpdate ⟨22, 380⟩ [0, 22, 44] 0 500 = [0, 22, 380] := by
    norm_num [onUpdate, goRight, clampPos]
  refine ⟨h, ?_⟩
  rintro ⟨d, hd⟩
  rw [h] at hd
  simp only [List.cons.injEq, and_true] at hd
  obtain ⟨h0, h1, h2⟩ := hd
  linarith

/-- C3 (amended): dragging bead 0 of a fully packed 3-bead rod rightwards by a
large delta leaves beads 0 and 1 at their old positions (each is clamped back
against the CURRENT position of the bead ahead) while bead 2 alone jumps to
the track-edge clamp `maxX`. -/
theorem packed_trio_update (p : AbacusParams) (a dx : ℚ)
    (ha : 0 ≤ a) (hu : 0 < p.beadUnit)
    (hroom : a + 2 * p.beadUnit < p.maxX)
    (hbig : p.maxX ≤ a + 2 * p.beadUnit + dx) :
    onUpdate p [a, a + p.beadUnit, a + 2 * p.beadUnit] 0 dx
      = [a, a + p.beadUnit, p.maxX] := by
  have hdx : 0 < dx := by linarith
  have hmax : 0 ≤ p.maxX := by linarith
  have h1 : a < clampPos p (a + dx) := lt_clampPos_add p hdx (by linarith)
  have h2 : a + p.beadUnit < clampPos p (a + p.beadUnit + dx) :=
    lt_clampPos_add p hdx (by linarith)
  have h3 : clampPos p (a + 2 * p.beadUnit + dx) = p.maxX := by
    unfold clampPos
    rw [min_eq_right (by linarith), max_eq_right hmax]
  unfold onUpdate
  rw [if_pos
      (by norm_num : (0:ℕ) < ([a, a + p.beadUnit, a + 2 * p.beadUnit] : List ℚ).length),
    if_pos hdx]
  · simp only [List.take_zero, List.drop_zero, List.nil_append, goRight]
    rw [h3]
    rw [if_pos (by linarith : clampPos p (a + dx) + p.beadUnit > a + p.beadUnit)]
    rw [if_neg (by linarith : ¬ a + p.beadUnit - p.beadUnit + p.beadUnit ≥ p.maxX)]
    rw [if_pos
      (by linarith : clampPos p (a + p.beadUnit + dx) + p.beadUnit > a + 2 * p.beadUnit)]
    rw [if_neg
      (by linarith : ¬ a + 2 * p.beadUnit - p.beadUnit + p.beadUnit ≥ p.maxX)]
    have e1 : a + p.beadUnit - p.beadUnit = a := by ring
    have e2 : a + 2 * p.beadUnit - p.beadUnit = a + p.beadUnit := by ring
    rw [e1, e2]

/-- Witness for the amended C3 at a concrete packed rod. -/
theorem packed_trio_update_witness :
    onUpdate ⟨22, 380⟩ [0, 0 + 22, 0 + 2 * 22] 0 500 = [0, 0 + 22, 380] :=
  packed_trio_update ⟨22, 380⟩ 0 500 (by norm_num) (by norm_num) (by norm_num)
    (by norm_num)

/-- C4 (counterexample): with beads at `[0, 100]` (`beadUnit = 22`,
`maxX = 380`) a `+50` drag on bead 0 moves bead 1 from `100` to `150` by the
raw delta, although after the update bead 0 sits at `50` and
`50 + 22 <= 100` — bead 1 was not in contact with the bead behind it. -/
theorem downstream_moves_without_contact :
    onUpdate ⟨22, 380⟩ [0, 100] 0 50 = [50, 150] ∧
      (50 : ℚ) + 22 ≤ 100 ∧ ((150 : ℚ) ≠ 100) := by
  refine ⟨?_, by norm_num, by norm_num⟩
  norm_num [onUpdate, goRight, clampPos]

/-- C4 (amended): every bead the walk visits has the raw `dx` added to its
own position before clamping; for a 2-bead rod where even the moved bead 0
stays clear of bead 1, bead 1 is nevertheless translated by the full raw
delta. -/
theorem raw_delta_propagates (p : AbacusParams) (x y dx : ℚ)
    (hx : 0 ≤ x) (hu : 0 ≤ p.beadUnit) (hdx : 0 < dx)
    (hgap : x + dx + p.beadUnit ≤ y) (hymax : y + dx ≤ p.maxX) :
    onUpdate p [x, y] 0 dx = [x + dx, y + dx] := by
  have hcx : clampPos p (x + dx) = x + dx :=
    clampPos_eq_self p (by linarith) (by linarith)
  have hcy : clampPos p (y + dx) = y + dx :=
    clampPos_eq_self p (by linarith) (by linarith)
  unfold onUpdate
  rw [if_pos (by norm_num : (0:ℕ) < ([x, y] : List ℚ).length), if_pos hdx]
  simp only [List.take_zero, List.drop_zero, List.nil_append, goRight]
  rw [hcx, hcy]
  rw [if_neg (by linarith : ¬ x + dx + p.beadUnit > y)]
  rw [if_neg (by linarith : ¬ x + dx + p.beadUnit ≥ p.maxX)]

/-- Witness for the amended C4 at a concrete rod. -/
theorem raw_delta_propagates_witness :
    onUpdate ⟨22, 380⟩ [0, 100] 0 30 = [0 + 30, 100 + 30] :=
  raw_delta_propagates ⟨22, 380⟩ 0 100 30 (by norm_num) (by norm_num) (by norm_num)
    (by norm_num) (by norm_num)

/-- C5: in the spec's scenario (10 beads at `0, 22, ..., 198`,
`beadUnit = 22`, `maxX = 380`) a single `+500` drag on bead 0 leaves bead 0
at exactly `0`: it is clamped back against bead 1's current position `22`.
(The full result also shows bead 9 alone jumping to the edge.) -/
theorem scenario_bead0_blocked :
    onUpdate ⟨22, 380⟩ [0, 22, 44, 66, 88, 110, 132, 154, 176, 198] 0 500
        = [0, 22, 44, 66, 88, 110, 132, 154, 176, 380] ∧
      (onUpdate ⟨22, 380⟩ [0, 22, 44, 66, 88, 110, 132, 154, 176, 198] 0 500).get? 0
        = some 0 := by
  have h : onUpdate ⟨22, 380⟩ [0, 22, 44, 66, 88, 110, 132, 154, 176, 198] 0 500
      = [0, 22, 44, 66, 88, 110, 132, 154, 176, 380] := by
    norm_num [onUpdate, goRight, clampPos]
  exact ⟨h, by rw [h]; rfl⟩

/-- C6: a drag update with `dx = 0` (which takes the `direction = -1` branch)
leaves every bead position unchanged, on any rod satisfying both invariants. -/
theorem zero_delta_noop (p : AbacusParams) (xs : List ℚ) (i : ℕ)
    (hno : nonOverlap p xs) (hbd : inBounds p xs) :
    onUpdate p xs i 0 = xs := by
  unfold nonOverlap at hno
  unfold inBounds at hbd
  unfold onUpdate
  by_cases hi : i < xs.length
  · rw [if_pos hi, if_neg (lt_irrefl 0)]
    have hrc : ((xs.take (i + 1)).reverse).Chain' (fun u v => v + p.beadUnit ≤ u) := by
      rw [List.chain'_reverse]
      exact hno.take _
    have hrb : ∀ x ∈ (xs.take (i + 1)).reverse, 0 ≤ x ∧ x ≤ p.maxX :=
      fun x hx => hbd x (List.take_subset _ _ (List.mem_reverse.mp hx))
    rw [goLeft_zero p _ hrc hrb, List.reverse_reverse, List.take_append_drop]
  · rw [if_neg hi]

/-- Witness for C6 at a concrete rod. -/
theorem zero_delta_noop_witness :
    onUpdate ⟨22, 380⟩ [0, 30] 1 0 = [0, 30] :=
  zero_delta_noop ⟨22, 380⟩ [0, 30] 1
    (by norm_num [nonOverlap, List.chain'_cons, List.chain'_singleton])
    (by norm_num [inBounds])

/-- C7: a single drag update changes positions only inside one contiguous run
of indices that starts at the dragged index and extends in the drag direction
up to where the walk stopped: there is a `k` such that for a rightward drag
every index below the dragged one or above `k` is unchanged, and for a
leftward drag (including `dx = 0`) every index below `k` or above the dragged
one is unchanged. -/
theorem onUpdate_frame (p : AbacusParams) (xs : List ℚ) (i : ℕ) (dx : ℚ) :
    ∃ k : ℕ,
      (0 < dx → ∀ j : ℕ, j < i ∨ k < j →
        (onUpdate p xs i dx).get? j = xs.get? j) ∧
      (¬ 0 < dx → ∀ j : ℕ, j < k ∨ i < j →
        (onUpdate p xs i dx).get? j = xs.get? j) := by
  by_cases hi : i < xs.length
  · by_cases hdx : 0 < dx
    · obtain ⟨l₁, heq, hle, hne⟩ := goRight_decomp p dx (xs.drop i)
      have hm1 : 1 ≤ l₁.length := by
        refine hne ?_
        intro hcon
        rw [List.drop_eq_nil_iff_le] at hcon
        omega
      refine ⟨i + l₁.length - 1, fun _ j hj => ?_, fun hc => absurd hdx hc⟩
      have hres : onUpdate p xs i dx = xs.take i ++ (l₁ ++ xs.drop (i + l₁.length)) := by
        unfold onUpdate
        rw [if_pos hi, if_pos hdx, heq, List.drop_drop]
      rcases hj with hj | hj
      · have hlt : j < (xs.take i).length := by
          rw [List.length_take]
          omega
        rw [hres, List.get?_append hlt, List.get?_take hj]
      · have hlen : (xs.take i ++ l₁).length = i + l₁.length := by
          rw [List.length_append, List.length_take]
          omega
        rw [hres, ← List.append_assoc,
          List.get?_append_right (by rw [hlen]; omega), hlen, List.get?_drop]
        congr 1
        omega
    · obtain ⟨l₁, heq, hle, hne⟩ := goLeft_decomp p dx ((xs.take (i + 1)).reverse)
      have htklen : (xs.take (i + 1)).length = i + 1 := by
        rw [List.length_take]
        omega
      have hm1 : 1 ≤ l₁.length := by
        refine hne ?_
        intro hcon
        have hcon2 := congrArg List.length hcon
        rw [List.length_reverse, htklen] at hcon2
        simp at hcon2
      have hmle : l₁.length ≤ i + 1 := by
        rw [List.length_reverse, htklen] at hle
        exact hle
      refine ⟨i + 1 - l₁.length, fun hc => absurd hc hdx, fun _ j hj => ?_⟩
      have hx1 : (List.take (i + 1 - l₁.length) (xs.take (i + 1))).reverse
          = (xs.take (i + 1)).reverse.drop l₁.length := by
        rw [List.reverse_take, htklen]
        congr 1
        omega
      have hres : onUpdate p xs i dx
          = xs.take (i + 1 - l₁.length) ++ (l₁.reverse ++ xs.drop (i + 1)) := by
        unfold onUpdate
        rw [if_pos hi, if_neg hdx, heq, List.reverse_append, List.append_assoc,
          ← hx1, List.reverse_reverse, List.take_take]
        congr 2
        omega
      rcases hj with hj | hj
      · have hlt : j < (xs.take (i + 1 - l₁.length)).length := by
          rw [List.length_take]
          omega
        rw [hres, List.get?_append hlt, List.get?_take hj]
      · have hlen : (xs.take (i + 1 - l₁.length) ++ l₁.reverse).length = i + 1 := by
          rw [List.length_append, List.length_take, List.length_reverse]
          omega
        rw [hres, ← List.append_assoc,
          List.get?_append_right (by rw [hlen]; omega), hlen, List.get?_drop]
        congr 1
        omega
  · have hres : onUpdate p xs i dx = xs := by
      unfold onUpdate
      rw [if_neg hi]
    exact ⟨i, fun _ j _ => by rw [hres], fun _ j _ => by rw [hres]⟩

/-- C8 (counterexample): with beads `[0, 100, 200]` (`beadUnit = 22`,
`maxX = 380`) and a `+50` drag on bead 0, the walk does NOT halt at the first
bead that needs no move: after bead 0 commits at `50` there is no contact
pressure on bead 1 (`50 + 22 <= 100`), yet the loop visits all 3 beads and
moves beads 1 and 2 by the raw delta. -/
theorem walk_ignores_contact_pressure :
    onUpdate ⟨22, 380⟩ [0, 100, 200] 0 50 = [50, 150, 250] ∧
      onUpdateSteps ⟨22, 380⟩ [0, 100, 200] 0 50 = 3 ∧
      (50 : ℚ) + 22 ≤ 100 ∧ ((150 : ℚ) ≠ 100) := by
  refine ⟨?_, ?_, by norm_num, by norm_num⟩
  · norm_num [onUpdate, goRight, clampPos]
  · norm_num [onUpdateSteps, goRightSteps, clampPos]

/-- C8 (amended): the walk always terminates after visiting at most one loop
iteration per bead: the number of visited beads is bounded by the rod size.
(The halting conditions are the rod boundary and the track-edge test
`overlapResolved`, not the absence of contact pressure.) -/
theorem onUpdateSteps_le_length (p : AbacusParams) (xs : List ℚ) (i : ℕ) (dx : ℚ) :
    onUpdateSteps p xs i dx ≤ xs.length := by
  unfold onUpdateSteps
  by_cases hi : i < xs.length
  · rw [if_pos hi]
    by_cases hdx : 0 < dx
    · rw [if_pos hdx]
      refine le_trans (goRightSteps_le p dx _) ?_
      rw [List.length_drop]
      omega
    · rw [if_neg hdx]
      refine le_trans (goLeftSteps_le p dx _) ?_
      rw [List.length_reverse, List.length_take]
      omega
  · rw [if_neg hi]
    exact Nat.zero_le _

/-! ### The tally screen (`TallyTracker`)

Per-player counters are JavaScript numbers, embedded as integers; the action
history is the `actionHistory` array.  `mapIdxFrom` is
`Array.prototype.map((el, i) => ...)` with the running element index. -/

/-- One player's counters (`TallyData` in the source). -/
structure TallyData where
  name : String
  correct : ℤ
  tryAgain : ℤ
  total : ℤ
deriving DecidableEq

/-- The two scoring action kinds (`'correct' | 'tryAgain'`). -/
inductive ActionType where
  | correct
  | tryAgain
deriving DecidableEq

/-- One recorded scoring action (`Action` in the source; that name is taken in Mathlib). -/
structure TallyAction where
  playerIndex : ℕ
  type : ActionType
  timestamp : ℤ
deriving DecidableEq

/-- `initialTallyData`: empty name, all counters zero. -/
def initialTallyData : TallyData :=
  { name := "", correct := 0, tryAgain := 0, total := 0 }

/-- `Array.prototype.map` with the element index, indices starting at `n`. -/
def mapIdxFrom {α : Type} (f : ℕ → α → α) : ℕ → List α → List α
  | _, [] => []
  | n, x :: xs => f n x :: mapIdxFrom f (n + 1) xs

/-- `handleCorrect(index)`: bump `correct` and `total` of player `index` and
append a `'correct'` action (`now` is the `Date.now()` timestamp). -/
def handleCorrect (players : List TallyData) (history : List TallyAction)
    (index : ℕ) (now : ℤ) : List TallyData × List TallyAction :=
  (mapIdxFrom
      (fun i player =>
        if i = index then
          { player with correct := player.correct + 1, total := player.total + 1 }
        else player) 0 players,
    history ++ [{ playerIndex := index, type := ActionType.correct, timestamp := now }])

/-- `handleTryAgain(index)`: bump `tryAgain` and `total` of player `index` and
append a `'tryAgain'` action. -/
def handleTryAgain (players : List TallyData) (history : List TallyAction)
    (index : ℕ) (now : ℤ) : List TallyData × List TallyAction :=
  (mapIdxFrom
      (fun i player =>
        if i = index then
          { player with tryAgain := player.tryAgain + 1, total := player.total + 1 }
        else player) 0 players,
    history ++ [{ playerIndex := index, type := ActionType.tryAgain, timestamp := now }])

/-- `handleUndo()`: with an empty history do nothing; otherwise decrement the
last action's counter (`player[lastAction.type] - 1`) and `total` of the
player it names, and drop the last history entry (`slice(0, -1)`). -/
def handleUndo (players : List TallyData) (history : List TallyAction) :
    List TallyData × List TallyAction :=
  match history.getLast? with
  | none => (players, history)
  | some lastAction =>
      (mapIdxFrom
          (fun i player =>
            if i = lastAction.playerIndex then
              match lastAction.type with
              | ActionType.correct =>
                  { player with correct := player.correct - 1, total := player.total - 1 }
              | ActionType.tryAgain =>
                  { player with tryAgain := player.tryAgain - 1, total := player.total - 1 }
            else player) 0 players,
        history.dropLast)

/-- `handleReset()`: zero every player's counters and clear the history. -/
def handleReset (players : List TallyData) : List TallyData × List TallyAction :=
  (players.map fun player => { player with correct := 0, tryAgain := 0, total := 0 }, [])

/-- The tally bookkeeping invariant: `total = correct + tryAgain`. -/
def TallyInv (player : TallyData) : Prop :=
  player.total = player.correct + player.tryAgain

/-- The invariant for every player of a roster. -/
def TallyInvAll (players : List TallyData) : Prop :=
  ∀ player ∈ players, TallyInv player

theorem mapIdxFrom_forall {α : Type} (P : α → Prop) (f : ℕ → α → α)
    (hf : ∀ (n : ℕ) (x : α), P x → P (f n x)) :
    ∀ (n : ℕ) (l : List α), (∀ x ∈ l, P x) → ∀ x ∈ mapIdxFrom f n l, P x
  | _, [], _ => by simp [mapIdxFrom]
  | n, x :: xs, h => by
    intro z hz
    simp only [mapIdxFrom, List.mem_cons] at hz
    rcases hz with hz | hz
    · exact hz ▸ hf n x (h x (by simp))
    · exact mapIdxFrom_forall P f hf (n + 1) xs
        (fun y hy => h y (List.mem_cons_of_mem x hy)) z hz

theorem mapIdxFrom_cancel {α : Type} (f g : ℕ → α → α)
    (h : ∀ (n : ℕ) (x : α), g n (f n x) = x) :
    ∀ (n : ℕ) (l : List α), mapIdxFrom g n (mapIdxFrom f n l) = l
  | _, [] => rfl
  | n, x :: xs => by
    simp only [mapIdxFrom, h n x, mapIdxFrom_cancel f g h (n + 1) xs]

/-- C9: every player satisfies `total = correct + tryAgain` initially, and
`handleCorrect`, `handleTryAgain`, `handleUndo` (on a non-empty history) and
`handleReset` each preserve that invariant for every player. -/
theorem tally_invariant_preserved :
    TallyInv initialTallyData ∧
    (∀ (players : List TallyData) (history : List TallyAction) (index : ℕ) (now : ℤ),
        TallyInvAll players → TallyInvAll (handleCorrect players history index now).1) ∧
    (∀ (players : List TallyData) (history : List TallyAction) (index : ℕ) (now : ℤ),
        TallyInvAll players → TallyInvAll (handleTryAgain players history index now).1) ∧
    (∀ (players : List TallyData) (history : List TallyAction), history ≠ [] →
        TallyInvAll players → TallyInvAll (handleUndo players history).1) ∧
    (∀ players : List TallyData, TallyInvAll (handleReset players).1) := by
  refine ⟨by norm_num [TallyInv, initialTallyData], ?_, ?_, ?_, ?_⟩
  · intro players history index now h
    unfold TallyInvAll at h ⊢
    unfold handleCorrect
    dsimp only
    refine mapIdxFrom_forall TallyInv _ ?_ 0 players h
    intro n x hx
    by_cases hn : n = index
    · unfold TallyInv at hx ⊢
      simp only [hn, eq_self_iff_true, if_true]
      omega
    · simpa [hn] using hx
  · intro players history index now h
    unfold TallyInvAll at h ⊢
    unfold handleTryAgain
    dsimp only
    refine mapIdxFrom_forall TallyInv _ ?_ 0 players h
    intro n x hx
    by_cases hn : n = index
    · unfold TallyInv at hx ⊢
      simp only [hn, eq_self_iff_true, if_true]
      omega
    · simpa [hn] using hx
  · intro players history hne h
    unfold TallyInvAll at h ⊢
    unfold handleUndo
    cases hg : history.getLast? with
    | none => exact h
    | some lastAction =>
      dsimp only
      refine mapIdxFrom_forall TallyInv _ ?_ 0 players h
      intro n x hx
      by_cases hn : n = lastAction.playerIndex
      · unfold TallyInv at hx ⊢
        cases hty : lastAction.type <;>
          · simp only [hn, hty, eq_self_iff_true, if_true]
            omega
      · simpa [hn] using hx
  · intro players
    unfold TallyInvAll handleReset
    dsimp only
    intro x hx
    rw [List.mem_map] at hx
    obtain ⟨a, -, ha⟩ := hx
    rw [← ha]
    unfold TallyInv
    norm_num

/-- Witness for C9 at a concrete roster. -/
theorem tally_invariant_preserved_witness :
    TallyInvAll
      (handleCorrect [{ name := "P1", correct := 3, tryAgain := 2, total := 5 }] [] 0 7).1 :=
  tally_invariant_preserved.2.1
    [{ name := "P1", correct := 3, tryAgain := 2, total := 5 }] [] 0 7
    (by norm_num [TallyInvAll, TallyInv])

/-- C10: undo exactly reverses the last scoring action — `handleCorrect` (or
`handleTryAgain`) followed by `handleUndo` restores every player's counters
and the action history, and `handleUndo` on an empty history is the
identity. -/
theorem undo_reverses_last_action :
    (∀ (players : List TallyData) (history : List TallyAction) (index : ℕ) (now : ℤ),
        handleUndo (handleCorrect players history index now).1
          (handleCorrect players history index now).2 = (players, history)) ∧
    (∀ (players : List TallyData) (history : List TallyAction) (index : ℕ) (now : ℤ),
        handleUndo (handleTryAgain players history index now).1
          (handleTryAgain players history index now).2 = (players, history)) ∧
    (∀ players : List TallyData, handleUndo players [] = (players, [])) := by
  refine ⟨?_, ?_, fun players => rfl⟩
  · intro players history index now
    unfold handleCorrect handleUndo
    dsimp only
    rw [List.getLast?_concat]
    dsimp only
    rw [List.dropLast_concat]
    simp only [Prod.mk.injEq]
    refine ⟨?_, trivial⟩
    refine mapIdxFrom_cancel _ _ ?_ 0 players
    intro n x
    by_cases hn : n = index
    · simp [hn]
    · simp [hn]
  · intro players history index now
    unfold handleTryAgain handleUndo
    dsimp only
    rw [List.getLast?_concat]
    dsimp only
    rw [List.dropLast_concat]
    simp only [Prod.mk.injEq]
    refine ⟨?_, trivial⟩
    refine mapIdxFrom_cancel _ _ ?_ 0 players
    intro n x
    by_cases hn : n = index
    · simp [hn]
    · simp [hn]
